import Mathlib

/-!
Verification development for the speak TTS daemon (src/python/server.py and
src/python/binary_protocol.py).  Text is modelled as `List Char`, byte streams
as `List Nat` (each element a byte value), and the stateful handlers as pure
functions from abstract collaborator oracles to event traces / response values.
-/

set_option maxRecDepth 4000

namespace Speak

/-! ## Text segmentation (server.py, split_text_into_chunks)

Python reference, lines 45-102 of server.py:

    text = ' '.join(text.split())
    if len(text) <= max_chars: return [text]
    sentences = re.split(r'(?<=[.!?])\s+', text)
    ... greedy packing, clause fallback via re.split(r'(?<=[,;:\-])\s+', s) ...
-/

def isWs (c : Char) : Bool := c.isWhitespace

/-- Python str.split(): whitespace-separated words, empties dropped.
`acc` is the reversed current word. -/
def wordsAux : List Char → List Char → List (List Char)
  | [], acc => if acc = [] then [] else [acc.reverse]
  | c :: rest, acc =>
    if isWs c then
      if acc = [] then wordsAux rest [] else acc.reverse :: wordsAux rest []
    else wordsAux rest (c :: acc)

def pyWords (s : List Char) : List (List Char) := wordsAux s []

/-- Python ' '.join(pieces). -/
def joinSp : List (List Char) → List Char
  | [] => []
  | [x] => x
  | x :: y :: rest => x ++ ' ' :: joinSp (y :: rest)

/-- Whitespace normalization: ' '.join(text.split()). -/
def normalize (s : List Char) : List Char := joinSp (pyWords s)

/-- Python str.strip(). -/
def strip (s : List Char) : List Char :=
  ((s.dropWhile isWs).reverse.dropWhile isWs).reverse

/-- re.split(r'(?<=[SEPS])\s+', s): split at each maximal whitespace run that
immediately follows a character of `seps`; the run is consumed.  Fuel-indexed
for structural recursion; fuel ≥ length of the input suffices. -/
def reSplitAfterF (seps : List Char) : Nat → List Char → List (List Char)
  | _, [] => [[]]
  | _, [c] => [[c]]
  | 0, s => [s]
  | fuel+1, c :: d :: rest =>
    if seps.contains c && isWs d then
      [c] :: reSplitAfterF seps fuel ((d :: rest).dropWhile isWs)
    else
      match reSplitAfterF seps fuel (d :: rest) with
      | [] => [[c]]
      | p :: ps => (c :: p) :: ps

def reSplitAfter (seps : List Char) (s : List Char) : List (List Char) :=
  reSplitAfterF seps s.length s

/-- Sentence-ending characters of the regex [.!?]. -/
def sentSeps : List Char := ['.', '!', '?']

/-- Clause-boundary characters of the regex [,;:\-]. -/
def clauseSeps : List Char := [',', ';', ':', '-']

/-- chunks.append(current_chunk.strip()) guarded by `if current_chunk:`. -/
def flushChunk (chunks : List (List Char)) (current : List Char) : List (List Char) :=
  if current = [] then chunks else chunks ++ [strip current]

/-- One iteration of the inner clause-packing loop of split_text_into_chunks. -/
def clauseStep (maxc : Nat) (st : List (List Char) × List Char) (clause0 : List Char) :
    List (List Char) × List Char :=
  let clause := strip clause0
  if clause = [] then st
  else if st.2.length + clause.length + 1 > maxc then
    (flushChunk st.1 st.2, clause)
  else
    (st.1, if st.2 = [] then clause else strip (st.2 ++ ' ' :: clause))

/-- One iteration of the outer sentence loop of split_text_into_chunks. -/
def sentStep (maxc : Nat) (st : List (List Char) × List Char) (sentence0 : List Char) :
    List (List Char) × List Char :=
  let sentence := strip sentence0
  if sentence = [] then st
  else if st.2.length + sentence.length + 1 > maxc then
    let chunks := flushChunk st.1 st.2
    if sentence.length > maxc then
      (reSplitAfter clauseSeps sentence).foldl (clauseStep maxc) (chunks, [])
    else (chunks, sentence)
  else
    (st.1, if st.2 = [] then sentence else strip (st.2 ++ ' ' :: sentence))

def MAX_CHUNK_CHARS : Nat := 250

/-- server.py split_text_into_chunks. -/
def split_text_into_chunks (text : List Char) (max_chars : Nat) : List (List Char) :=
  let t := normalize text
  if t.length ≤ max_chars then [t]
  else
    let st := (reSplitAfter sentSeps t).foldl (sentStep max_chars) ([], [])
    flushChunk st.1 st.2

example : normalize "  hello   world ".toList = "hello world".toList := by decide
example : split_text_into_chunks "hello world".toList 250 = ["hello world".toList] := by decide
example : reSplitAfter sentSeps "ab. cd! e".toList =
    ["ab.".toList, "cd!".toList, "e".toList] := by decide
example : split_text_into_chunks "abcd. efg. hij".toList 8 =
    ["abcd.".toList, "efg. hij".toList] := by decide
example : split_text_into_chunks "abcdefghijk".toList 4 = ["abcdefghijk".toList] := by decide
example : split_text_into_chunks "ab, cdefg, hi".toList 6 =
    ["ab,".toList, "cdefg,".toList, "hi".toList] := by decide
example : split_text_into_chunks " ".toList 250 = [[]] := by decide

/-! ## Shape predicates for normalized text -/

/-- No two adjacent whitespace characters. -/
def noAdjWs : List Char → Bool
  | a :: b :: t => (!(isWs a && isWs b)) && noAdjWs (b :: t)
  | _ => true

/-- Every whitespace character is a plain space. -/
def spaceOnly (s : List Char) : Bool := s.all (fun c => !isWs c || c == ' ')

/-- First character (if any) is not whitespace. -/
def headNonWs : List Char → Bool
  | [] => true
  | c :: _ => !isWs c

/-- Last character (if any) is not whitespace. -/
def lastNonWs : List Char → Bool
  | [] => true
  | [c] => !isWs c
  | _ :: c :: t => lastNonWs (c :: t)

/-- The string contains a split point: a separator character immediately
followed by a whitespace character. -/
def hasBoundary (seps : List Char) : List Char → Bool
  | a :: b :: t => (seps.contains a && isWs b) || hasBoundary seps (b :: t)
  | _ => false

/-- `p` occurs as a contiguous segment of `s`. -/
def SubSeg (p s : List Char) : Prop := ∃ l r, s = l ++ p ++ r

/-- A well-formed piece: nonempty, single spaces only, trimmed. -/
def GoodPiece (p : List Char) : Prop :=
  p ≠ [] ∧ noAdjWs p = true ∧ spaceOnly p = true ∧
    headNonWs p = true ∧ lastNonWs p = true

/-- Space-concatenation used to state reconstruction of content. -/
def jcat (a b : List Char) : List Char :=
  if a = [] then b else if b = [] then a else a ++ ' ' :: b

/-! ### Basic lemmas about the predicates -/

theorem andE {a b : Bool} (h : (a && b) = true) : a = true ∧ b = true := by
  simp only [Bool.and_eq_true] at h
  exact h

theorem notE {b : Bool} (h : (!b) = true) : b = false := by
  simp only [Bool.not_eq_true'] at h
  exact h

theorem noAdjWs_tail {a : Char} {l : List Char} (h : noAdjWs (a :: l) = true) :
    noAdjWs l = true := by
  cases l with
  | nil => rfl
  | cons b t => simp only [noAdjWs, Bool.and_eq_true] at h; exact h.2

theorem noAdjWs_pair {a b : Char} {t : List Char} (h : noAdjWs (a :: b :: t) = true) :
    ¬(isWs a = true ∧ isWs b = true) := by
  simp only [noAdjWs, Bool.and_eq_true, Bool.not_eq_true'] at h
  intro hc
  rw [hc.1, hc.2] at h
  simp at h

theorem spaceOnly_tail {a : Char} {l : List Char} (h : spaceOnly (a :: l) = true) :
    spaceOnly l = true := by
  simp only [spaceOnly, List.all_cons, Bool.and_eq_true] at h ⊢
  exact h.2

theorem spaceOnly_head {a : Char} {l : List Char} (h : spaceOnly (a :: l) = true)
    (hws : isWs a = true) : a = ' ' := by
  simp only [spaceOnly, List.all_cons, Bool.and_eq_true] at h
  rcases Bool.or_eq_true_iff.mp h.1 with h1 | h1
  · rw [hws] at h1; simp at h1
  · exact beq_iff_eq.mp h1

theorem lastNonWs_cons {a : Char} {l : List Char} (hl : l ≠ []) :
    lastNonWs (a :: l) = lastNonWs l := by
  cases l with
  | nil => exact absurd rfl hl
  | cons b t => rfl

theorem lastNonWs_append {a b : List Char} (hb : b ≠ []) :
    lastNonWs (a ++ b) = lastNonWs b := by
  induction a with
  | nil => rfl
  | cons x xs ih =>
    have hne : xs ++ b ≠ [] := by
      intro h
      rcases List.append_eq_nil.mp h with ⟨-, h2⟩
      exact hb h2
    rw [List.cons_append, lastNonWs_cons hne, ih]

theorem headNonWs_append_left {a b : List Char} (ha : a ≠ []) :
    headNonWs (a ++ b) = headNonWs a := by
  cases a with
  | nil => exact absurd rfl ha
  | cons x xs => rfl

theorem headNonWs_reverse (s : List Char) : headNonWs s.reverse = lastNonWs s := by
  induction s with
  | nil => rfl
  | cons a l ih =>
    cases l with
    | nil => rfl
    | cons b t =>
      have hne : (b :: t).reverse ≠ [] := by simp
      rw [List.reverse_cons, headNonWs_append_left hne, ih,
        lastNonWs_cons (by simp : (b : Char) :: t ≠ [])]

theorem dropWhile_isWs_eq_self {s : List Char} (h : headNonWs s = true) :
    s.dropWhile isWs = s := by
  cases s with
  | nil => rfl
  | cons c t =>
    simp only [headNonWs, Bool.not_eq_true'] at h
    simp [List.dropWhile, h]

theorem strip_eq_self {s : List Char} (h1 : headNonWs s = true)
    (h2 : lastNonWs s = true) : strip s = s := by
  unfold strip
  rw [dropWhile_isWs_eq_self h1]
  rw [← headNonWs_reverse] at h2
  rw [dropWhile_isWs_eq_self h2, List.reverse_reverse]

theorem strip_nil : strip [] = [] := rfl

/-- Appending a space-separated good piece keeps the trimming shape. -/
theorem strip_append_piece {cur p : List Char} (hcur : cur ≠ [])
    (h1 : headNonWs cur = true) (hp : p ≠ []) (h2 : lastNonWs p = true) :
    strip (cur ++ ' ' :: p) = cur ++ ' ' :: p := by
  apply strip_eq_self
  · rw [headNonWs_append_left hcur]; exact h1
  · have : cur ++ ' ' :: p = (cur ++ [' ']) ++ p := by simp
    rw [this, lastNonWs_append hp]; exact h2

theorem noAdjWs_of_all_nonWs {w : List Char} (h : w.all (fun c => !isWs c) = true) :
    noAdjWs w = true := by
  induction w with
  | nil => rfl
  | cons a l ih =>
    simp only [List.all_cons, Bool.and_eq_true] at h
    cases l with
    | nil => rfl
    | cons b t =>
      simp only [noAdjWs, Bool.and_eq_true]
      refine ⟨?_, ih h.2⟩
      simp only [List.all_cons, Bool.and_eq_true] at h
      rw [Bool.not_eq_true'] at h
      simp [h.1]

theorem noAdjWs_append_space {j : List Char} (hj : noAdjWs j = true)
    (hhead : headNonWs j = true) :
    ∀ x : List Char, noAdjWs x = true → lastNonWs x = true →
      noAdjWs (x ++ ' ' :: j) = true := by
  intro x
  induction x with
  | nil =>
    intro _ _
    cases j with
    | nil => rfl
    | cons b t =>
      simp only [headNonWs, Bool.not_eq_true'] at hhead
      simp only [List.nil_append, noAdjWs, Bool.and_eq_true]
      constructor
      · simp [hhead]
      · exact hj
  | cons a l ih =>
    intro hx hlast
    cases l with
    | nil =>
      simp only [lastNonWs, Bool.not_eq_true'] at hlast
      simp only [List.cons_append, List.nil_append, noAdjWs, Bool.and_eq_true]
      constructor
      · simp [hlast]
      · exact ih rfl rfl
    | cons b t =>
      simp only [List.cons_append, noAdjWs, Bool.and_eq_true]
      constructor
      · simp only [noAdjWs, Bool.and_eq_true] at hx
        exact hx.1
      · exact ih (noAdjWs_tail hx)
          (by rw [← lastNonWs_cons (by simp : (b : Char) :: t ≠ [])]; exact hlast)

theorem hasBoundary_eq_false_tail {a : Char} {l : List Char}
    (h : hasBoundary seps (a :: l) = false) : hasBoundary seps l = false := by
  cases l with
  | nil => rfl
  | cons b t =>
    simp only [hasBoundary, Bool.or_eq_false_iff] at h
    exact h.2

/-- A boundary inside a segment is a boundary of the enclosing string. -/
theorem hasBoundary_of_SubSeg {seps : List Char} {p s : List Char}
    (hsub : SubSeg p s) (h : hasBoundary seps p = true) : hasBoundary seps s = true := by
  obtain ⟨l, r, rfl⟩ := hsub
  induction l with
  | nil =>
    simp only [List.nil_append]
    induction p with
    | nil => simp [hasBoundary] at h
    | cons a t ih =>
      cases t with
      | nil => simp [hasBoundary] at h
      | cons b u =>
        simp only [hasBoundary, Bool.or_eq_true] at h
        rcases h with h | h
        · simp only [List.cons_append, hasBoundary, Bool.or_eq_true]
          left
          exact h
        · have := ih h
          simp only [List.cons_append, hasBoundary, Bool.or_eq_true]
          right
          exact this
  | cons x xs ih =>
    cases hx : xs ++ p ++ r with
    | nil =>
      rcases List.append_eq_nil.mp (List.append_eq_nil.mp hx).1 with ⟨-, h2⟩
      subst h2; simp [hasBoundary] at h
    | cons y ys =>
      simp only [List.cons_append, hx, hasBoundary, Bool.or_eq_true]
      right
      rw [← hx]
      exact ih

theorem SubSeg_refl (p : List Char) : SubSeg p p := ⟨[], [], by simp⟩

theorem SubSeg_cons {p s : List Char} (a : Char) (h : SubSeg p s) :
    SubSeg p (a :: s) := by
  obtain ⟨l, r, rfl⟩ := h
  exact ⟨a :: l, r, by simp⟩

/-! ### Lemmas about the regex split -/

theorem joinSp_cons {x : List Char} {l : List (List Char)} (hl : l ≠ []) :
    joinSp (x :: l) = x ++ ' ' :: joinSp l := by
  cases l with
  | nil => exact absurd rfl hl
  | cons y t => rfl

theorem reSplitAfterF_ne_nil (seps : List Char) :
    ∀ (fuel : Nat) (s : List Char), reSplitAfterF seps fuel s ≠ [] := by
  intro fuel s
  match fuel, s with
  | fuel, [] => cases fuel <;> simp [reSplitAfterF]
  | fuel, [c] => cases fuel <;> simp [reSplitAfterF]
  | 0, _ :: _ :: _ => simp [reSplitAfterF]
  | fuel+1, c :: d :: rest =>
    simp only [reSplitAfterF]
    split
    · simp
    · split <;> simp

/-- The first piece of a split of `c :: s'` starts with `c` and is a front
segment of the input. -/
theorem reSplitAfterF_head (seps : List Char) :
    ∀ (fuel : Nat) (c : Char) (s' : List Char),
      ∃ q qs, reSplitAfterF seps fuel (c :: s') = (c :: q) :: qs ∧ ∃ r, s' = q ++ r := by
  intro fuel
  induction fuel with
  | zero =>
    intro c s'
    cases s' with
    | nil => exact ⟨[], [], by simp [reSplitAfterF], [], by simp⟩
    | cons d rest => exact ⟨d :: rest, [], by simp [reSplitAfterF], [], by simp⟩
  | succ fuel ih =>
    intro c s'
    cases s' with
    | nil => exact ⟨[], [], by simp [reSplitAfterF], [], by simp⟩
    | cons d rest =>
      by_cases hsplit : (seps.contains c && isWs d) = true
      · refine ⟨[], reSplitAfterF seps fuel ((d :: rest).dropWhile isWs), ?_, d :: rest, by simp⟩
        simp only [reSplitAfterF]
        rw [if_pos hsplit]
      · obtain ⟨q, qs, heq, r, hr⟩ := ih d rest
        refine ⟨d :: q, qs, ?_, r, by simp [hr]⟩
        simp only [reSplitAfterF]
        rw [if_neg hsplit, heq]

theorem dropWhile_of_noAdj {d : Char} {rest : List Char}
    (h : noAdjWs (d :: rest) = true) (hd : isWs d = true) :
    (d :: rest).dropWhile isWs = rest := by
  cases rest with
  | nil => simp [List.dropWhile, hd]
  | cons e t =>
    have hpair := noAdjWs_pair h
    have he : isWs e = false := by
      cases hws : isWs e
      · rfl
      · exact absurd ⟨hd, hws⟩ hpair
    simp [List.dropWhile, hd, he]

/-- Rejoining the split with single spaces reconstructs the input, provided the
input has no two adjacent whitespace characters and all whitespace is ' '
(true of whitespace-normalized text, where each consumed run is one space). -/
theorem joinSp_reSplitAfterF (seps : List Char) :
    ∀ (fuel : Nat) (s : List Char), noAdjWs s = true → spaceOnly s = true →
      joinSp (reSplitAfterF seps fuel s) = s := by
  intro fuel
  induction fuel with
  | zero =>
    intro s _ _
    match s with
    | [] => rfl
    | [c] => rfl
    | c :: d :: rest => rfl
  | succ fuel ih =>
    intro s hadj hsp
    match s with
    | [] => rfl
    | [c] => rfl
    | c :: d :: rest =>
      by_cases hsplit : (seps.contains c && isWs d) = true
      · have hd : isWs d = true := (andE hsplit).2
        have hdrop : (d :: rest).dropWhile isWs = rest :=
          dropWhile_of_noAdj (noAdjWs_tail hadj) hd
        have hdsp : d = ' ' := spaceOnly_head (spaceOnly_tail hsp) hd
        simp only [reSplitAfterF]
        rw [if_pos hsplit, hdrop, joinSp_cons (reSplitAfterF_ne_nil seps fuel rest),
          ih rest (noAdjWs_tail (noAdjWs_tail hadj)) (spaceOnly_tail (spaceOnly_tail hsp))]
        simp [hdsp]
      · obtain ⟨q, qs, heq, r, hr⟩ := reSplitAfterF_head seps fuel d rest
        simp only [reSplitAfterF]
        rw [if_neg hsplit, heq]
        have hrec := ih (d :: rest) (noAdjWs_tail hadj) (spaceOnly_tail hsp)
        rw [heq] at hrec
        cases qs with
        | nil =>
          simp only [joinSp] at hrec ⊢
          rw [hrec]
        | cons p ps =>
          rw [joinSp_cons (by simp)] at hrec ⊢
          simp only [List.cons_append] at hrec ⊢
          injection hrec with h1 h2
          rw [h2]

/-- Every piece of the split of canonical trimmed text is itself nonempty,
canonical, trimmed, free of interior split points, and a contiguous segment
of the input. -/
theorem reSplitAfterF_pieces (seps : List Char)
    (hseps : seps.all (fun c => !isWs c) = true) :
    ∀ (fuel : Nat) (s : List Char), s.length ≤ fuel + 1 →
      noAdjWs s = true → spaceOnly s = true → lastNonWs s = true → s ≠ [] →
      ∀ p ∈ reSplitAfterF seps fuel s,
        p ≠ [] ∧ noAdjWs p = true ∧ spaceOnly p = true ∧ lastNonWs p = true ∧
          hasBoundary seps p = false ∧ SubSeg p s := by
  intro fuel
  induction fuel with
  | zero =>
    intro s hlen hadj hsp hlast hne p hp
    match s, hlen with
    | [], _ => exact absurd rfl hne
    | [c], _ =>
      simp only [reSplitAfterF, List.mem_singleton] at hp
      subst hp
      exact ⟨by simp, rfl, hsp, hlast, rfl, SubSeg_refl _⟩
    | c :: d :: rest, hlen => simp at hlen
  | succ fuel ih =>
    intro s hlen hadj hsp hlast hne p hp
    match s with
    | [] => exact absurd rfl hne
    | [c] =>
      simp only [reSplitAfterF, List.mem_singleton] at hp
      subst hp
      exact ⟨by simp, rfl, hsp, hlast, rfl, SubSeg_refl _⟩
    | c :: d :: rest =>
      simp only [List.length_cons] at hlen
      by_cases hsplit : (seps.contains c && isWs d) = true
      · have hd : isWs d = true := (andE hsplit).2
        have hcmem : c ∈ seps := by
          have h1 := (andE hsplit).1
          exact List.elem_iff.mp h1
        have hcns : isWs c = false :=
          notE (List.all_eq_true.mp hseps c hcmem)
        have hrest : rest ≠ [] := by
          intro h
          subst h
          simp only [lastNonWs] at hlast
          rw [hd] at hlast
          simp at hlast
        have hdrop : (d :: rest).dropWhile isWs = rest :=
          dropWhile_of_noAdj (noAdjWs_tail hadj) hd
        simp only [reSplitAfterF] at hp
        rw [if_pos hsplit, hdrop] at hp
        rcases List.mem_cons.mp hp with hpc | hpr
        · subst hpc
          refine ⟨by simp, rfl, ?_, ?_, rfl, ⟨[], d :: rest, by simp⟩⟩
          · simp only [spaceOnly, List.all_cons, Bool.and_eq_true] at hsp ⊢
            exact ⟨hsp.1, rfl⟩
          · simp only [lastNonWs]
            rw [hcns]
            rfl
        · have hlast' : lastNonWs rest = true := by
            rw [lastNonWs_cons (by simp : (d : Char) :: rest ≠ [])] at hlast
            rw [lastNonWs_cons hrest] at hlast
            exact hlast
          have := ih rest (by omega) (noAdjWs_tail (noAdjWs_tail hadj))
            (spaceOnly_tail (spaceOnly_tail hsp)) hlast' hrest p hpr
          exact ⟨this.1, this.2.1, this.2.2.1, this.2.2.2.1, this.2.2.2.2.1,
            SubSeg_cons c (SubSeg_cons d this.2.2.2.2.2)⟩
      · obtain ⟨q, qs, heq, r, hr⟩ := reSplitAfterF_head seps fuel d rest
        have hgood := ih (d :: rest) (by simpa using Nat.le_of_succ_le_succ hlen)
          (noAdjWs_tail hadj) (spaceOnly_tail hsp)
          (by rw [← lastNonWs_cons (by simp : (d : Char) :: rest ≠ [])]; exact hlast)
          (by simp)
        rw [heq] at hgood
        simp only [reSplitAfterF] at hp
        rw [if_neg hsplit, heq] at hp
        rcases List.mem_cons.mp hp with hpc | hpq
        · subst hpc
          have hd2q := hgood (d :: q) (List.mem_cons_self _ _)
          have hcd : ¬(isWs c = true ∧ isWs d = true) := noAdjWs_pair hadj
          refine ⟨by simp, ?_, ?_, ?_, ?_, ⟨[], r, by simp [hr]⟩⟩
          · simp only [noAdjWs, Bool.and_eq_true]
            refine ⟨?_, hd2q.2.1⟩
            cases hc : isWs c
            · simp
            · cases hdw : isWs d
              · simp
              · exact absurd ⟨hc, hdw⟩ hcd
          · simp only [spaceOnly, List.all_cons, Bool.and_eq_true] at hsp ⊢
            have := hd2q.2.2.1
            simp only [spaceOnly, List.all_cons, Bool.and_eq_true] at this
            exact ⟨hsp.1, this⟩
          · rw [lastNonWs_cons (by simp : (d : Char) :: q ≠ [])]
            exact hd2q.2.2.2.1
          · simp only [hasBoundary, Bool.or_eq_false_iff]
            exact ⟨Bool.not_eq_true _ ▸ Bool.eq_false_iff.mpr hsplit, hd2q.2.2.2.2.1⟩
        · have := hgood p (List.mem_cons_of_mem _ hpq)
          exact ⟨this.1, this.2.1, this.2.2.1, this.2.2.2.1, this.2.2.2.2.1,
            SubSeg_cons c this.2.2.2.2.2⟩

/-- Every piece of a split is headed by a non-whitespace character, except
possibly the first piece (which starts where the input starts). -/
theorem reSplitAfterF_tailHeads (seps : List Char) :
    ∀ (fuel : Nat) (s : List Char), s.length ≤ fuel + 1 →
      noAdjWs s = true → lastNonWs s = true →
      ∀ p ∈ (reSplitAfterF seps fuel s).tail, headNonWs p = true := by
  intro fuel
  induction fuel with
  | zero =>
    intro s hlen _ _ p hp
    match s, hlen with
    | [], _ => simp [reSplitAfterF] at hp
    | [c], _ => simp [reSplitAfterF] at hp
    | c :: d :: rest, hlen => simp at hlen
  | succ fuel ih =>
    intro s hlen hadj hlast p hp
    match s with
    | [] => simp [reSplitAfterF] at hp
    | [c] => simp [reSplitAfterF] at hp
    | c :: d :: rest =>
      simp only [List.length_cons] at hlen
      by_cases hsplit : (seps.contains c && isWs d) = true
      · have hd : isWs d = true := (andE hsplit).2
        have hrest : rest ≠ [] := by
          intro h
          subst h
          simp only [lastNonWs] at hlast
          rw [hd] at hlast
          simp at hlast
        have hdrop : (d :: rest).dropWhile isWs = rest :=
          dropWhile_of_noAdj (noAdjWs_tail hadj) hd
        simp only [reSplitAfterF] at hp
        rw [if_pos hsplit, hdrop] at hp
        simp only [List.tail_cons] at hp
        match rest, hrest with
        | e :: t, _ =>
          obtain ⟨q, qs, heq, -⟩ := reSplitAfterF_head seps fuel e t
          rw [heq] at hp
          have hlast' : lastNonWs (e :: t) = true := by
            rw [lastNonWs_cons (by simp : (d : Char) :: e :: t ≠ [])] at hlast
            rw [← lastNonWs_cons (by simp : (e : Char) :: t ≠ [])]
            exact hlast
          rcases List.mem_cons.mp hp with hpc | hpq
          · subst hpc
            have hde : isWs e = false := by
              have hpair := noAdjWs_pair (noAdjWs_tail hadj)
              cases hws : isWs e
              · rfl
              · exact absurd ⟨hd, hws⟩ hpair
            simp only [headNonWs]
            rw [hde]
            rfl
          · have := ih (e :: t) (by simp at hlen ⊢; omega) (noAdjWs_tail (noAdjWs_tail hadj))
              hlast' p
            rw [heq] at this
            exact this hpq
      · obtain ⟨q, qs, heq, -⟩ := reSplitAfterF_head seps fuel d rest
        simp only [reSplitAfterF] at hp
        rw [if_neg hsplit, heq] at hp
        simp only [List.tail_cons] at hp
        have := ih (d :: rest) (by simp only [List.length_cons]; omega) (noAdjWs_tail hadj)
          (by rw [← lastNonWs_cons (by simp : (d : Char) :: rest ≠ [])]; exact hlast) p
        rw [heq] at this
        simp only [List.tail_cons] at this
        exact this hp

/-- Combined well-formedness of the pieces of `reSplitAfter` on canonical
trimmed nonempty input. -/
theorem reSplitAfter_good {seps : List Char}
    (hseps : seps.all (fun c => !isWs c) = true) {s : List Char}
    (hadj : noAdjWs s = true) (hsp : spaceOnly s = true)
    (hhead : headNonWs s = true) (hlast : lastNonWs s = true) (hne : s ≠ []) :
    ∀ p ∈ reSplitAfter seps s,
      GoodPiece p ∧ hasBoundary seps p = false ∧ SubSeg p s := by
  intro p hp
  have hcore := reSplitAfterF_pieces seps hseps s.length s (by omega) hadj hsp hlast hne p hp
  refine ⟨⟨hcore.1, hcore.2.1, hcore.2.2.1, ?_, hcore.2.2.2.1⟩,
    hcore.2.2.2.2.1, hcore.2.2.2.2.2⟩
  -- headNonWs p: first piece starts with the head of s; later pieces start
  -- after a consumed whitespace run.
  match s, hne with
  | c :: s', _ =>
    obtain ⟨q, qs, heq, -⟩ := reSplitAfterF_head seps (c :: s').length c s'
    rw [reSplitAfter, heq] at hp
    rcases List.mem_cons.mp hp with hpc | hpq
    · subst hpc
      simpa only [headNonWs] using hhead
    · have := reSplitAfterF_tailHeads seps (c :: s').length (c :: s') (by omega) hadj hlast p
      rw [heq] at this
      exact this hpq

theorem joinSp_reSplitAfter (seps : List Char) {s : List Char}
    (hadj : noAdjWs s = true) (hsp : spaceOnly s = true) :
    joinSp (reSplitAfter seps s) = s :=
  joinSp_reSplitAfterF seps s.length s hadj hsp

/-! ### Canonicity of whitespace normalization -/

theorem wordsAux_good : ∀ (s acc : List Char), acc.all (fun c => !isWs c) = true →
    ∀ w ∈ wordsAux s acc, w ≠ [] ∧ w.all (fun c => !isWs c) = true := by
  intro s
  induction s with
  | nil =>
    intro acc hacc w hw
    simp only [wordsAux] at hw
    split at hw
    · simp at hw
    · next hne =>
      simp only [List.mem_singleton] at hw
      subst hw
      constructor
      · simpa using hne
      · simpa using hacc
  | cons c rest ih =>
    intro acc hacc w hw
    simp only [wordsAux] at hw
    by_cases hc : isWs c = true
    · rw [if_pos hc] at hw
      by_cases ha : acc = []
      · rw [if_pos ha] at hw
        exact ih [] rfl w hw
      · rw [if_neg ha] at hw
        rcases List.mem_cons.mp hw with h | h
        · subst h
          constructor
          · simpa using ha
          · simpa using hacc
        · exact ih [] rfl w h
    · have hc' : isWs c = false := by simpa using hc
      rw [if_neg hc] at hw
      refine ih (c :: acc) ?_ w hw
      simp only [List.all_cons, Bool.and_eq_true]
      exact ⟨by simp [hc'], hacc⟩

theorem headNonWs_of_word {w : List Char}
    (h : w.all (fun c => !isWs c) = true) : headNonWs w = true := by
  cases w with
  | nil => rfl
  | cons c t =>
    simp only [List.all_cons, Bool.and_eq_true] at h
    simp only [headNonWs]
    exact h.1

theorem lastNonWs_of_word {w : List Char}
    (h : w.all (fun c => !isWs c) = true) : lastNonWs w = true := by
  induction w with
  | nil => rfl
  | cons a l ih =>
    cases l with
    | nil =>
      simp only [List.all_cons, Bool.and_eq_true] at h
      simpa only [lastNonWs] using h.1
    | cons b t =>
      rw [lastNonWs_cons (by simp : (b : Char) :: t ≠ [])]
      exact ih (by simp only [List.all_cons, Bool.and_eq_true] at h ⊢; exact h.2)

theorem spaceOnly_of_word {w : List Char}
    (h : w.all (fun c => !isWs c) = true) : spaceOnly w = true := by
  rw [spaceOnly, List.all_eq_true]
  intro c hc
  rw [List.all_eq_true] at h
  simp [h c hc]

theorem spaceOnly_append {a b : List Char} (ha : spaceOnly a = true)
    (hb : spaceOnly b = true) : spaceOnly (a ++ b) = true := by
  simp only [spaceOnly, List.all_append, Bool.and_eq_true]
  exact ⟨ha, hb⟩

theorem joinSp_ne_nil {l : List (List Char)} (hl : l ≠ []) (h : ∀ w ∈ l, w ≠ []) :
    joinSp l ≠ [] := by
  cases l with
  | nil => exact absurd rfl hl
  | cons x t =>
    cases t with
    | nil => exact h x (by simp)
    | cons y u => simp [joinSp]

theorem joinSp_spaceOnly : ∀ l : List (List Char),
    (∀ w ∈ l, w.all (fun c => !isWs c) = true) → spaceOnly (joinSp l) = true := by
  intro l
  induction l with
  | nil => intro _; rfl
  | cons x t ih =>
    intro h
    cases t with
    | nil => exact spaceOnly_of_word (h x (by simp))
    | cons y u =>
      simp only [joinSp]
      refine spaceOnly_append (spaceOnly_of_word (h x (by simp))) ?_
      have : spaceOnly (joinSp (y :: u)) = true := ih (fun w hw => h w (by simp [hw]))
      simp only [spaceOnly, List.all_cons, Bool.and_eq_true]
      exact ⟨by decide, this⟩

theorem joinSp_headNonWs : ∀ l : List (List Char),
    (∀ w ∈ l, w ≠ [] ∧ w.all (fun c => !isWs c) = true) →
    headNonWs (joinSp l) = true := by
  intro l
  induction l with
  | nil => intro _; rfl
  | cons x t _ =>
    intro h
    cases t with
    | nil => exact headNonWs_of_word (h x (by simp)).2
    | cons y u =>
      simp only [joinSp]
      rw [headNonWs_append_left (h x (by simp)).1]
      exact headNonWs_of_word (h x (by simp)).2

theorem joinSp_lastNonWs : ∀ l : List (List Char),
    (∀ w ∈ l, w ≠ [] ∧ w.all (fun c => !isWs c) = true) →
    lastNonWs (joinSp l) = true := by
  intro l
  induction l with
  | nil => intro _; rfl
  | cons x t ih =>
    intro h
    cases t with
    | nil => exact lastNonWs_of_word (h x (by simp)).2
    | cons y u =>
      have hj : joinSp (y :: u) ≠ [] :=
        joinSp_ne_nil (by simp) (fun w hw => (h w (by simp [hw])).1)
      simp only [joinSp]
      have : (' ' :: joinSp (y :: u)) ≠ [] := by simp
      rw [lastNonWs_append this, lastNonWs_cons hj]
      exact ih (fun w hw => h w (by simp [hw]))

theorem joinSp_noAdjWs : ∀ l : List (List Char),
    (∀ w ∈ l, w ≠ [] ∧ w.all (fun c => !isWs c) = true) →
    noAdjWs (joinSp l) = true := by
  intro l
  induction l with
  | nil => intro _; rfl
  | cons x t ih =>
    intro h
    cases t with
    | nil => exact noAdjWs_of_all_nonWs (h x (by simp)).2
    | cons y u =>
      simp only [joinSp]
      exact noAdjWs_append_space (ih (fun w hw => h w (by simp [hw])))
        (joinSp_headNonWs (y :: u) (fun w hw => h w (by simp [hw]))) x
        (noAdjWs_of_all_nonWs (h x (by simp)).2)
        (lastNonWs_of_word (h x (by simp)).2)

/-- Normalized text is canonical: single interior spaces, trimmed ends. -/
theorem normalize_canon (s : List Char) :
    noAdjWs (normalize s) = true ∧ spaceOnly (normalize s) = true ∧
      headNonWs (normalize s) = true ∧ lastNonWs (normalize s) = true := by
  have hw : ∀ w ∈ pyWords s, w ≠ [] ∧ w.all (fun c => !isWs c) = true :=
    wordsAux_good s [] rfl
  exact ⟨joinSp_noAdjWs _ hw, joinSp_spaceOnly _ (fun w h => (hw w h).2),
    joinSp_headNonWs _ hw, joinSp_lastNonWs _ hw⟩

/-! ### Invariants of the greedy packing loops -/

theorem jcat_nil_left (b : List Char) : jcat [] b = b := by simp [jcat]

theorem jcat_nil_right (a : List Char) : jcat a [] = a := by
  by_cases h : a = [] <;> simp [jcat, h]

theorem jcat_assoc (a b c : List Char) : jcat (jcat a b) c = jcat a (jcat b c) := by
  by_cases ha : a = [] <;> by_cases hb : b = [] <;> by_cases hc : c = [] <;>
    simp [jcat, ha, hb, hc]

theorem joinSp_cons_jcat {p : List Char} {rest : List (List Char)} (hp : p ≠ [])
    (hrest : ∀ q ∈ rest, q ≠ []) : joinSp (p :: rest) = jcat p (joinSp rest) := by
  cases rest with
  | nil => simp [joinSp, jcat_nil_right]
  | cons q u =>
    have hj : joinSp (q :: u) ≠ [] := joinSp_ne_nil (by simp) hrest
    simp only [joinSp, jcat, if_neg hp, if_neg hj]

theorem joinSp_append_singleton : ∀ (l : List (List Char)) (x : List Char),
    (∀ w ∈ l, w ≠ []) → x ≠ [] → joinSp (l ++ [x]) = jcat (joinSp l) x := by
  intro l
  induction l with
  | nil => intro x _ hx; simp [joinSp, jcat_nil_left]
  | cons a t ih =>
    intro x hl hx
    have ha : a ≠ [] := hl a (by simp)
    cases t with
    | nil =>
      simp only [List.cons_append, List.nil_append, joinSp, jcat, if_neg ha, if_neg hx]
    | cons b u =>
      have hjne : joinSp (b :: u) ≠ [] :=
        joinSp_ne_nil (by simp) (fun w hw => hl w (by simp [hw]))
      rw [List.cons_append, joinSp_cons (show (b :: u) ++ [x] ≠ [] by simp),
        ih x (fun w hw => hl w (by simp [hw])) hx,
        joinSp_cons (show ((b :: u) : List (List Char)) ≠ [] by simp)]
      simp [jcat, hjne, hx, ha]

/-- A finished chunk: nonempty and either within the limit or an atomic
oversized clause (no interior clause or sentence split point). -/
def ChunkOK (maxc : Nat) (ch : List Char) : Prop :=
  ch ≠ [] ∧ (ch.length ≤ maxc ∨
    (hasBoundary clauseSeps ch = false ∧ hasBoundary sentSeps ch = false))

/-- Loop-state invariant: accumulated chunks are finished chunks and the
running buffer is trimmed and itself bounded-or-atomic. -/
def StOK (maxc : Nat) (st : List (List Char) × List Char) : Prop :=
  (∀ ch ∈ st.1, ChunkOK maxc ch) ∧ headNonWs st.2 = true ∧ lastNonWs st.2 = true ∧
    (st.2.length ≤ maxc ∨
      (hasBoundary clauseSeps st.2 = false ∧ hasBoundary sentSeps st.2 = false))

/-- Space-joined content of the state after a final flush. -/
def outOf (st : List (List Char) × List Char) : List Char :=
  joinSp (flushChunk st.1 st.2)

theorem flushChunk_ok {maxc : Nat} {st : List (List Char) × List Char}
    (h : StOK maxc st) : ∀ ch ∈ flushChunk st.1 st.2, ChunkOK maxc ch := by
  intro ch hch
  unfold flushChunk at hch
  split at hch
  · exact h.1 ch hch
  · next hne =>
    rcases List.mem_append.mp hch with h1 | h1
    · exact h.1 ch h1
    · simp only [List.mem_singleton] at h1
      subst h1
      rw [strip_eq_self h.2.1 h.2.2.1]
      exact ⟨hne, h.2.2.2⟩

theorem flushChunk_nil_right (A : List (List Char)) : flushChunk A [] = A := rfl

theorem flushChunk_of_ne {A : List (List Char)} {cur : List Char} (h : cur ≠ []) :
    flushChunk A cur = A ++ [strip cur] := if_neg h

theorem outOf_eq_jcat {maxc : Nat} {st : List (List Char) × List Char}
    (h : StOK maxc st) : outOf st = jcat (joinSp st.1) st.2 := by
  unfold outOf flushChunk
  split
  · next hc =>
    rw [hc, jcat_nil_right]
  · next hc =>
    rw [strip_eq_self h.2.1 h.2.2.1,
      joinSp_append_singleton st.1 st.2 (fun w hw => (h.1 w hw).1) hc]

/-- The fits-branch of both packing loops: append the piece to the buffer. -/
theorem fits_case_ok {maxc : Nat} {st : List (List Char) × List Char} {p : List Char}
    (hst : StOK maxc st) (hgp : GoodPiece p)
    (hle : ¬st.2.length + p.length + 1 > maxc) :
    StOK maxc (st.1, if st.2 = [] then p else strip (st.2 ++ ' ' :: p)) ∧
      outOf (st.1, if st.2 = [] then p else strip (st.2 ++ ' ' :: p)) =
        jcat (outOf st) p := by
  obtain ⟨hpne, hpadj, hpsp, hphead, hplast⟩ := hgp
  by_cases hcur : st.2 = []
  · rw [if_pos hcur]
    have hcl : st.2.length = 0 := by rw [hcur]; rfl
    constructor
    · exact ⟨hst.1, hphead, hplast, Or.inl (show p.length ≤ maxc by omega)⟩
    · rw [outOf_eq_jcat hst, hcur, jcat_nil_right]
      show joinSp (flushChunk st.1 p) = _
      rw [flushChunk_of_ne hpne, strip_eq_self hphead hplast,
        joinSp_append_singleton st.1 p (fun w hw => (hst.1 w hw).1) hpne]
  · rw [if_neg hcur]
    have hcur' : strip (st.2 ++ ' ' :: p) = st.2 ++ ' ' :: p :=
      strip_append_piece hcur hst.2.1 hpne hplast
    rw [hcur']
    have happne : st.2 ++ ' ' :: p ≠ [] := by simp
    have hhead' : headNonWs (st.2 ++ ' ' :: p) = true := by
      rw [headNonWs_append_left hcur]
      exact hst.2.1
    have hlast' : lastNonWs (st.2 ++ ' ' :: p) = true := by
      have : st.2 ++ ' ' :: p = (st.2 ++ [' ']) ++ p := by simp
      rw [this, lastNonWs_append hpne]
      exact hplast
    constructor
    · refine ⟨hst.1, hhead', hlast', Or.inl ?_⟩
      simp only [List.length_append, List.length_cons]
      omega
    · rw [outOf_eq_jcat hst]
      show joinSp (flushChunk st.1 (st.2 ++ ' ' :: p)) = _
      rw [flushChunk_of_ne happne, strip_eq_self hhead' hlast',
        joinSp_append_singleton st.1 _ (fun w hw => (hst.1 w hw).1) happne,
        jcat_assoc]
      congr 1
      simp only [jcat, if_neg hcur, if_neg hpne]

/-- One clause-loop step preserves the invariant and appends the clause's
content. -/
theorem clauseStep_ok {maxc : Nat} {st : List (List Char) × List Char} {p : List Char}
    (hst : StOK maxc st) (hgp : GoodPiece p)
    (hbc : hasBoundary clauseSeps p = false) (hbs : hasBoundary sentSeps p = false) :
    StOK maxc (clauseStep maxc st p) ∧
      outOf (clauseStep maxc st p) = jcat (outOf st) p := by
  obtain ⟨hpne, hpadj, hpsp, hphead, hplast⟩ := hgp
  have hstrip : strip p = p := strip_eq_self hphead hplast
  unfold clauseStep
  simp only [hstrip, if_neg hpne]
  by_cases hgt : st.2.length + p.length + 1 > maxc
  · rw [if_pos hgt]
    constructor
    · exact ⟨flushChunk_ok hst, hphead, hplast, Or.inr ⟨hbc, hbs⟩⟩
    · show joinSp (flushChunk (flushChunk st.1 st.2) p) = _
      rw [flushChunk_of_ne hpne, hstrip,
        joinSp_append_singleton _ p (fun w hw => (flushChunk_ok hst w hw).1) hpne]
      rfl
  · rw [if_neg hgt]
    exact fits_case_ok hst ⟨hpne, hpadj, hpsp, hphead, hplast⟩ hgt

/-- Folding the clause loop over well-formed clauses preserves the invariant
and appends the clauses' joined content. -/
theorem clauseFold_ok {maxc : Nat} : ∀ (ps : List (List Char))
    (st : List (List Char) × List Char),
    (∀ p ∈ ps, GoodPiece p ∧ hasBoundary clauseSeps p = false ∧
      hasBoundary sentSeps p = false) →
    StOK maxc st →
    StOK maxc (ps.foldl (clauseStep maxc) st) ∧
      outOf (ps.foldl (clauseStep maxc) st) = jcat (outOf st) (joinSp ps) := by
  intro ps
  induction ps with
  | nil =>
    intro st _ hst
    exact ⟨hst, by simp [joinSp, jcat_nil_right]⟩
  | cons p rest ih =>
    intro st hps hst
    obtain ⟨hgp, hbc, hbs⟩ := hps p (by simp)
    obtain ⟨hok, hout⟩ := clauseStep_ok hst hgp hbc hbs
    obtain ⟨hok2, hout2⟩ := ih (clauseStep maxc st p) (fun q hq => hps q (by simp [hq])) hok
    refine ⟨hok2, ?_⟩
    rw [List.foldl_cons, hout2, hout, jcat_assoc,
      ← joinSp_cons_jcat hgp.1 (fun q hq => (hps q (by simp [hq])).1.1)]

/-- One sentence-loop step preserves the invariant and appends the
sentence's content. -/
theorem sentStep_ok {maxc : Nat} {st : List (List Char) × List Char} {p : List Char}
    (hst : StOK maxc st) (hgp : GoodPiece p)
    (hbs : hasBoundary sentSeps p = false) :
    StOK maxc (sentStep maxc st p) ∧
      outOf (sentStep maxc st p) = jcat (outOf st) p := by
  obtain ⟨hpne, hpadj, hpsp, hphead, hplast⟩ := hgp
  have hstrip : strip p = p := strip_eq_self hphead hplast
  unfold sentStep
  simp only [hstrip, if_neg hpne]
  by_cases hgt : st.2.length + p.length + 1 > maxc
  · rw [if_pos hgt]
    by_cases hbig : p.length > maxc
    · rw [if_pos hbig]
      have hclauses := reSplitAfter_good (by decide :
          clauseSeps.all (fun c => !isWs c) = true) hpadj hpsp hphead hplast hpne
      have hflush : StOK maxc (flushChunk st.1 st.2, []) :=
        ⟨flushChunk_ok hst, rfl, rfl, Or.inl (show ([] : List Char).length ≤ maxc by simp)⟩
      have hps : ∀ q ∈ reSplitAfter clauseSeps p,
          GoodPiece q ∧ hasBoundary clauseSeps q = false ∧
            hasBoundary sentSeps q = false := by
        intro q hq
        obtain ⟨hgq, hbq, hsub⟩ := hclauses q hq
        refine ⟨hgq, hbq, ?_⟩
        cases hqs : hasBoundary sentSeps q
        · rfl
        · exact absurd (hasBoundary_of_SubSeg hsub hqs) (by simp [hbs])
      obtain ⟨hok, hout⟩ := clauseFold_ok (reSplitAfter clauseSeps p) _ hps hflush
      refine ⟨hok, ?_⟩
      rw [hout, joinSp_reSplitAfter clauseSeps hpadj hpsp]
      have hsame : outOf (flushChunk st.1 st.2, []) = outOf st := by
        unfold outOf
        rw [flushChunk_nil_right]
      rw [hsame]
    · rw [if_neg hbig]
      constructor
      · exact ⟨flushChunk_ok hst, hphead, hplast,
          Or.inl (show p.length ≤ maxc by omega)⟩
      · show joinSp (flushChunk (flushChunk st.1 st.2) p) = _
        rw [flushChunk_of_ne hpne, hstrip,
          joinSp_append_singleton _ p (fun w hw => (flushChunk_ok hst w hw).1) hpne]
        rfl
  · rw [if_neg hgt]
    exact fits_case_ok hst ⟨hpne, hpadj, hpsp, hphead, hplast⟩ hgt

/-- Folding the sentence loop over well-formed sentences preserves the
invariant and appends the sentences' joined content. -/
theorem sentFold_ok {maxc : Nat} : ∀ (ps : List (List Char))
    (st : List (List Char) × List Char),
    (∀ p ∈ ps, GoodPiece p ∧ hasBoundary sentSeps p = false) →
    StOK maxc st →
    StOK maxc (ps.foldl (sentStep maxc) st) ∧
      outOf (ps.foldl (sentStep maxc) st) = jcat (outOf st) (joinSp ps) := by
  intro ps
  induction ps with
  | nil =>
    intro st _ hst
    exact ⟨hst, by simp [joinSp, jcat_nil_right]⟩
  | cons p rest ih =>
    intro st hps hst
    obtain ⟨hgp, hbs⟩ := hps p (by simp)
    obtain ⟨hok, hout⟩ := sentStep_ok hst hgp hbs
    obtain ⟨hok2, hout2⟩ := ih (sentStep maxc st p) (fun q hq => hps q (by simp [hq])) hok
    refine ⟨hok2, ?_⟩
    rw [List.foldl_cons, hout2, hout, jcat_assoc,
      ← joinSp_cons_jcat hgp.1 (fun q hq => (hps q (by simp [hq])).1.1)]

/-! ### Claim theorems about the text segmenter -/

/-- Claim C1: for every input text and every positive max_len, joining the
units returned by split_text_into_chunks with single spaces yields exactly the
whitespace-normalized input; no characters are lost, duplicated or
reordered. -/
theorem C1_space_join_reconstructs (text : List Char) (max_len : Nat)
    (_hpos : 0 < max_len) :
    joinSp (split_text_into_chunks text max_len) = normalize text := by
  simp only [split_text_into_chunks]
  by_cases hshort : (normalize text).length ≤ max_len
  · rw [if_pos hshort]
    rfl
  · rw [if_neg hshort]
    obtain ⟨hadj, hsp, hhead, hlast⟩ := normalize_canon text
    have htne : normalize text ≠ [] := by
      intro h
      rw [h] at hshort
      simp at hshort
    have hsent := reSplitAfter_good
      (by decide : sentSeps.all (fun c => !isWs c) = true) hadj hsp hhead hlast htne
    have hinit : StOK max_len ([], []) :=
      ⟨by intro ch hch; simp at hch, rfl, rfl, Or.inl (by simp)⟩
    obtain ⟨-, hout⟩ := sentFold_ok (reSplitAfter sentSeps (normalize text)) ([], [])
      (fun p hp => ⟨(hsent p hp).1, (hsent p hp).2.1⟩) hinit
    show outOf _ = _
    rw [hout, joinSp_reSplitAfter sentSeps hadj hsp]
    have hz : outOf (([] : List (List Char)), ([] : List Char)) = [] := rfl
    rw [hz, jcat_nil_left]

theorem C1_witness :
    0 < 250 ∧ joinSp (split_text_into_chunks "a  b.  c".toList 250) =
      normalize "a  b.  c".toList :=
  ⟨by decide, C1_space_join_reconstructs "a  b.  c".toList 250 (by decide)⟩

/-- Claim C4: every unit produced by split_text_into_chunks either fits the
limit or is an atomic clause with no interior clause or sentence split point;
oversized unsplittable clauses are kept whole, never dropped. -/
theorem C4_units_bounded_or_atomic (text : List Char) (max_len : Nat) :
    ∀ c ∈ split_text_into_chunks text max_len,
      c.length ≤ max_len ∨
        (hasBoundary clauseSeps c = false ∧ hasBoundary sentSeps c = false) := by
  intro c hc
  simp only [split_text_into_chunks] at hc
  by_cases hshort : (normalize text).length ≤ max_len
  · rw [if_pos hshort] at hc
    simp only [List.mem_singleton] at hc
    subst hc
    exact Or.inl hshort
  · rw [if_neg hshort] at hc
    obtain ⟨hadj, hsp, hhead, hlast⟩ := normalize_canon text
    have htne : normalize text ≠ [] := by
      intro h
      rw [h] at hshort
      simp at hshort
    have hsent := reSplitAfter_good
      (by decide : sentSeps.all (fun c => !isWs c) = true) hadj hsp hhead hlast htne
    have hinit : StOK max_len ([], []) :=
      ⟨by intro ch hch; simp at hch, rfl, rfl, Or.inl (by simp)⟩
    obtain ⟨hok, -⟩ := sentFold_ok (reSplitAfter sentSeps (normalize text)) ([], [])
      (fun p hp => ⟨(hsent p hp).1, (hsent p hp).2.1⟩) hinit
    exact (flushChunk_ok hok c hc).2

theorem C4_witness :
    "abcdefgh".toList ∈ split_text_into_chunks "abcdefgh".toList 4 ∧
      (("abcdefgh".toList).length ≤ 4 ∨
        (hasBoundary clauseSeps "abcdefgh".toList = false ∧
          hasBoundary sentSeps "abcdefgh".toList = false)) :=
  ⟨by decide, C4_units_bounded_or_atomic "abcdefgh".toList 4 _ (by decide)⟩

/-- Claim C7: when the whitespace-normalized text already fits max_len, the
segmenter returns exactly the one-element list holding the normalized text. -/
theorem C7_short_text_single_unit (text : List Char) (max_len : Nat)
    (h : (normalize text).length ≤ max_len) :
    split_text_into_chunks text max_len = [normalize text] := by
  simp only [split_text_into_chunks]
  rw [if_pos h]

theorem C7_witness :
    (normalize "hello   world".toList).length ≤ 250 ∧
      split_text_into_chunks "hello   world".toList 250 =
        [normalize "hello   world".toList] :=
  ⟨by decide, C7_short_text_single_unit "hello   world".toList 250 (by decide)⟩

/-- Claim C8 as stated is false: for whitespace-only input the normalized text
is empty, fits any limit, and is returned as the single (empty) unit. -/
theorem C8_counterexample :
    ¬(∀ (text : List Char) (max_len : Nat), 0 < max_len →
      ∀ c ∈ split_text_into_chunks text max_len, c ≠ []) := by
  intro h
  exact h " ".toList 250 (by decide) [] (by decide) rfl

/-- Claim C8 (amended): provided the whitespace-normalized input is nonempty,
no unit returned by split_text_into_chunks is the empty string. -/
theorem C8_amended_nonempty_units (text : List Char) (max_len : Nat)
    (_hpos : 0 < max_len) (hne : normalize text ≠ []) :
    ∀ c ∈ split_text_into_chunks text max_len, c ≠ [] := by
  intro c hc
  simp only [split_text_into_chunks] at hc
  by_cases hshort : (normalize text).length ≤ max_len
  · rw [if_pos hshort] at hc
    simp only [List.mem_singleton] at hc
    subst hc
    exact hne
  · rw [if_neg hshort] at hc
    obtain ⟨hadj, hsp, hhead, hlast⟩ := normalize_canon text
    have htne : normalize text ≠ [] := hne
    have hsent := reSplitAfter_good
      (by decide : sentSeps.all (fun c => !isWs c) = true) hadj hsp hhead hlast htne
    have hinit : StOK max_len ([], []) :=
      ⟨by intro ch hch; simp at hch, rfl, rfl, Or.inl (by simp)⟩
    obtain ⟨hok, -⟩ := sentFold_ok (reSplitAfter sentSeps (normalize text)) ([], [])
      (fun p hp => ⟨(hsent p hp).1, (hsent p hp).2.1⟩) hinit
    exact (flushChunk_ok hok c hc).1

theorem C8_witness :
    0 < 250 ∧ normalize "hi there".toList ≠ [] ∧ "hi there".toList ≠ [] :=
  ⟨by decide, by decide,
    C8_amended_nonempty_units "hi there".toList 250 (by decide) (by decide)
      "hi there".toList (by decide)⟩

/-! ## Binary streaming protocol (binary_protocol.py)

Byte streams are `List Nat` (byte values); float32 samples are represented by
their 32-bit patterns (samples.astype(np.float32) is the identity on float32
input, and tobytes/frombuffer move the 4-byte little-endian patterns
verbatim, so the round trip is stated on the patterns bit-exactly). -/

def MAGIC : List Nat := [0x53, 0x50, 0x4B, 0x52]

def END_MARKER : Nat := 0xFFFFFFFF

def ERROR_MARKER : Nat := 0xFFFFFFFE

/-- struct.pack('<I', n): little-endian 32-bit encoding (pack raises for
values outside [0, 2^32), so callers are stated with that bound). -/
def le32 (n : Nat) : List Nat :=
  [n % 256, n / 256 % 256, n / 65536 % 256, n / 16777216 % 256]

/-- Value of four little-endian bytes. -/
def deLe32 (a b c d : Nat) : Nat := a + 256 * b + 65536 * c + 16777216 * d

/-- np.frombuffer(..., dtype=np.float32): group bytes into 4-byte
little-endian words. -/
def bytesToWords : List Nat → List Nat
  | a :: b :: c :: d :: rest => deLe32 a b c d :: bytesToWords rest
  | _ => []

/-- binary_protocol.write_chunk: header [magic, id, count, rate] then the
sample words. -/
def write_chunk (chunk_id : Nat) (samples : List Nat) (sample_rate : Nat) : List Nat :=
  MAGIC ++ le32 chunk_id ++ le32 samples.length ++ le32 sample_rate ++
    (samples.map le32).flatten

/-- binary_protocol.write_end: header [magic, END_MARKER, total_chunks, 0]. -/
def write_end (total_chunks : Nat) : List Nat :=
  MAGIC ++ le32 END_MARKER ++ le32 total_chunks ++ le32 0

/-- binary_protocol.write_error: header [magic, ERROR_MARKER, len, 0] then the
UTF-8 message bytes. -/
def write_error (msg : List Nat) : List Nat :=
  MAGIC ++ le32 ERROR_MARKER ++ le32 msg.length ++ le32 0 ++ msg

inductive ReadMsg where
  | chunk (id : Nat) (samples : List Nat) (sample_rate : Nat)
  | endMsg (total_chunks : Nat)
  | errMsg (message : List Nat)
deriving DecidableEq

/-- binary_protocol.read_chunk: read exactly 16 header bytes, validate magic,
branch on the tag; none models a raised decode error or a read that cannot
complete. -/
def read_chunk : List Nat → Option ReadMsg
  | m0 :: m1 :: m2 :: m3 :: i0 :: i1 :: i2 :: i3 ::
      c0 :: c1 :: c2 :: c3 :: r0 :: r1 :: r2 :: r3 :: body =>
    if [m0, m1, m2, m3] ≠ MAGIC then none
    else
      let idm := deLe32 i0 i1 i2 i3
      let count := deLe32 c0 c1 c2 c3
      let rate := deLe32 r0 r1 r2 r3
      if idm = END_MARKER then some (.endMsg count)
      else if idm = ERROR_MARKER then
        if body.length < count then none
        else some (.errMsg (body.take count))
      else
        if body.length < count * 4 then none
        else some (.chunk idm (bytesToWords (body.take (count * 4))) rate)
  | _ => none

example : read_chunk (write_end 7) = some (.endMsg 7) := by decide
example : read_chunk (write_error [104, 105]) = some (.errMsg [104, 105]) := by decide

theorem deLe32_le32 {n : Nat} (h : n < 4294967296) :
    deLe32 (n % 256) (n / 256 % 256) (n / 65536 % 256) (n / 16777216 % 256) = n := by
  unfold deLe32
  omega

theorem bytesToWords_join : ∀ samples : List Nat, (∀ s ∈ samples, s < 4294967296) →
    bytesToWords ((samples.map le32).flatten) = samples := by
  intro samples
  induction samples with
  | nil => intro _; rfl
  | cons s rest ih =>
    intro h
    simp only [List.map_cons, List.flatten, le32, List.cons_append, List.nil_append]
    show deLe32 (s % 256) (s / 256 % 256) (s / 65536 % 256) (s / 16777216 % 256) ::
      bytesToWords ((rest.map le32).flatten) = s :: rest
    rw [deLe32_le32 (h s (by simp)), ih (fun x hx => h x (by simp [hx]))]

theorem join_map_le32_length : ∀ samples : List Nat,
    ((samples.map le32).flatten).length = 4 * samples.length := by
  intro samples
  induction samples with
  | nil => rfl
  | cons s rest ih =>
    show (le32 s ++ (rest.map le32).flatten).length = 4 * (s :: rest).length
    rw [List.length_append, ih]
    simp only [le32, List.length_cons, List.length_nil]
    omega

/-- Claim C2: for every chunk id below the reserved markers, every sample
rate and sample count representable in the 32-bit header fields, and every
sequence of float32 sample patterns, decoding the bytes produced by
write_chunk yields a chunk message with identical id, sample rate, and
samples (bit-exact). -/
theorem C2_chunk_round_trip (chunk_id : Nat) (samples : List Nat) (sample_rate : Nat)
    (hid : chunk_id < ERROR_MARKER) (hrate : sample_rate < 4294967296)
    (hcount : samples.length < 4294967296) (hsamp : ∀ s ∈ samples, s < 4294967296) :
    read_chunk (write_chunk chunk_id samples sample_rate) =
      some (.chunk chunk_id samples sample_rate) := by
  have hid32 : chunk_id < 4294967296 := by
    have : ERROR_MARKER < 4294967296 := by decide
    omega
  simp only [write_chunk, MAGIC, le32, List.cons_append, List.nil_append, read_chunk]
  rw [deLe32_le32 hid32, deLe32_le32 hcount, deLe32_le32 hrate]
  have hend : chunk_id ≠ END_MARKER := by
    intro h
    rw [END_MARKER] at h
    rw [ERROR_MARKER] at hid
    omega
  have herr : chunk_id ≠ ERROR_MARKER := Nat.ne_of_lt hid
  rw [if_neg (by decide), if_neg hend, if_neg herr]
  have hlen : ((samples.map le32).flatten).length = 4 * samples.length :=
    join_map_le32_length samples
  rw [if_neg (by rw [hlen]; omega)]
  rw [List.take_of_length_le (by rw [hlen]; omega)]
  rw [bytesToWords_join samples hsamp]

theorem C2_witness :
    0 < ERROR_MARKER ∧
      read_chunk (write_chunk 0 [1065353216, 3212836864] 24000) =
        some (.chunk 0 [1065353216, 3212836864] 24000) :=
  ⟨by decide,
    C2_chunk_round_trip 0 [1065353216, 3212836864] 24000 (by decide) (by decide)
      (by decide) (by decide)⟩

/-! ## Non-streaming generation (server.py, handle_generate)

The model collaborator (generate_audio followed by wavfile.read of the
produced wav file, one file per invocation) is abstracted as an oracle from
the unit index to a result or a raised exception message; file contents are
carried by value, so the audio written at the output path appears directly in
the result. -/

structure Audio where
  rate : Nat
  samples : List Int
deriving DecidableEq

/-- Terminal value of handle_generate: the result mapping (audio_path
represented by the combined audio written there) or an error response. -/
inductive GenResp where
  | result (audio : List Int) (sample_rate : Option Nat) (complete : Bool)
      (chunks_generated : Nat) (chunks_total : Nat) (reason : Option String)
  | error (code : Int) (message : String)
deriving DecidableEq

/-- The per-unit loop of handle_generate: units processed in order, stopping
at the first raised exception; returns the completed audios and the
exception message, if any. -/
def runUnits (gen : Nat → Except String Audio) : Nat → List (List Char) →
    List Audio × Option String
  | _, [] => ([], none)
  | i, _ :: rest =>
    match gen i with
    | .ok a =>
      match runUnits gen (i + 1) rest with
      | (as, e) => (a :: as, e)
    | .error msg => ([], some msg)

/-- Concatenation of the completed units' samples (np.concatenate). -/
def concatAudio (as : List Audio) : List Int := (as.map Audio.samples).flatten

/-- Sample rate taken from the first completed unit (first-writer-wins). -/
def firstRate (as : List Audio) : Option Nat := as.head?.map Audio.rate

/-- server.py handle_generate, non-streaming path: empty-text check, segment,
generate progressively, concatenate on success; on an exception concatenate
the completed prefix into a partial result when nonempty, else error code 2;
error code 3 when the loop completes without producing audio. -/
def handle_generate (gen : Nat → Except String Audio) (text : List Char) : GenResp :=
  if text = [] then .error 1 "No text provided"
  else
    let chunks := split_text_into_chunks text MAX_CHUNK_CHARS
    match runUnits gen 0 chunks with
    | (as, none) =>
      if as = [] then .error 3 "No audio generated"
      else .result (concatAudio as) (firstRate as) true as.length chunks.length none
    | (as, some msg) =>
      if as ≠ [] then
        .result (concatAudio as) (firstRate as) false as.length chunks.length (some msg)
      else .error 2 msg

theorem range_map_shift (as : Nat → Audio) (i k : Nat) :
    (List.range (k + 1)).map (fun j => as (i + j)) =
      as i :: (List.range k).map (fun j => as (i + 1 + j)) := by
  rw [List.range_succ_eq_map, List.map_cons, List.map_map]
  simp only [Nat.add_zero]
  refine congrArg (as i :: ·) ?_
  apply List.map_congr_left
  intro j _
  simp only [Function.comp_apply]
  congr 1
  omega

theorem runUnits_fail {gen : Nat → Except String Audio} {as : Nat → Audio} {msg : String} :
    ∀ (l : List (List Char)) (i k : Nat), k < l.length →
      (∀ j, j < k → gen (i + j) = .ok (as (i + j))) →
      gen (i + k) = .error msg →
      runUnits gen i l = ((List.range k).map (fun j => as (i + j)), some msg) := by
  intro l
  induction l with
  | nil => intro i k hk; simp at hk
  | cons x rest ih =>
    intro i k hk hok hfail
    cases k with
    | zero =>
      simp only [runUnits]
      rw [show gen i = .error msg by simpa using hfail]
      simp
    | succ k =>
      simp only [runUnits]
      rw [show gen i = .ok (as i) by simpa using hok 0 (by omega)]
      rw [ih (i + 1) k (by simpa using Nat.lt_of_succ_lt_succ (by simpa using hk))
        (fun j hj => by
          have h := hok (j + 1) (by omega)
          rw [show i + (j + 1) = i + 1 + j by omega] at h
          exact h)
        (by rw [show i + 1 + k = i + (k + 1) by omega]; exact hfail)]
      rw [range_map_shift]

/-- Claim C3: in non-streaming generate, a failure after k > 0 completed units
yields a result-shaped response with complete=false, units_done=k, a reason,
and the concatenation of the k completed units as output; a failure before any
unit completed yields an error response with code 2 and no partial output. -/
theorem C3_partial_failure_recovery (gen : Nat → Except String Audio)
    (text : List Char) (as : Nat → Audio) (k : Nat) (msg : String)
    (htext : text ≠ [])
    (hk : k < (split_text_into_chunks text MAX_CHUNK_CHARS).length)
    (hok : ∀ j, j < k → gen j = .ok (as j))
    (hfail : gen k = .error msg) :
    (0 < k →
      handle_generate gen text =
        .result (concatAudio ((List.range k).map as)) (firstRate ((List.range k).map as))
          false k (split_text_into_chunks text MAX_CHUNK_CHARS).length (some msg)) ∧
    (k = 0 → handle_generate gen text = .error 2 msg) := by
  have hrun : runUnits gen 0 (split_text_into_chunks text MAX_CHUNK_CHARS) =
      ((List.range k).map as, some msg) := by
    have := runUnits_fail (split_text_into_chunks text MAX_CHUNK_CHARS) 0 k hk
      (fun j hj => by simpa using hok j hj) (by simpa using hfail)
    simpa using this
  unfold handle_generate
  rw [if_neg htext]
  simp only [hrun]
  constructor
  · intro hkpos
    have hne : (List.range k).map as ≠ [] := by
      simp only [ne_eq, List.map_eq_nil_iff, List.range_eq_nil]
      omega
    rw [if_pos hne]
    simp
  · intro hk0
    subst hk0
    simp

def wText : List Char :=
  List.replicate 126 'a' ++ ('.' :: ' ' :: (List.replicate 126 'b' ++ ['.']))

def genW : Nat → Except String Audio :=
  fun i => if i = 0 then .ok ⟨24000, [1, 2]⟩ else .error "boom"

def asW : Nat → Audio := fun _ => ⟨24000, [1, 2]⟩

theorem C3_witness :
    wText ≠ [] ∧ 0 < 1 ∧
      handle_generate genW wText =
        .result (concatAudio ((List.range 1).map asW)) (firstRate ((List.range 1).map asW))
          false 1 (split_text_into_chunks wText MAX_CHUNK_CHARS).length (some "boom") :=
  ⟨by decide, by decide,
    (C3_partial_failure_recovery genW wText asW 1 "boom" (by decide) (by decide)
      (fun j hj => by
        have hj0 : j = 0 := by omega
        subst hj0
        rfl) rfl).1 (by decide)⟩

/-! ## Binary streaming handler (server.py, handle_stream_binary)

The generated wav files of one unit and their reads/conversions are
abstracted as a list of per-file outcomes; a read failure propagates out of
the per-file try/finally into the outer except, which writes one Error
message and stops.  The produced value is the ordered list of binary messages
written to the socket. -/

inductive BinEvent where
  | chunk (id : Nat) (samples : List Int) (rate : Nat)
  | endMsg (total_chunks : Nat)
  | errMsg (msg : String)
deriving DecidableEq

/-- Emit one Chunk message per successfully read wav file of a unit,
incrementing the chunk id; stop at the first raised read error. -/
def streamFiles : Nat → List (Except String Audio) → List BinEvent × Nat × Option String
  | cid, [] => ([], cid, none)
  | cid, .ok a :: rest =>
    match streamFiles (cid + 1) rest with
    | (evs, cid', e) => (.chunk cid a.samples a.rate :: evs, cid', e)
  | cid, .error m :: _ => ([], cid, some m)

/-- The unit loop of handle_stream_binary: process units in order; a raised
exception anywhere aborts the loop. -/
def streamUnits (gen : Nat → List (Except String Audio)) :
    Nat → Nat → List (List Char) → List BinEvent × Nat × Option String
  | _, cid, [] => ([], cid, none)
  | i, cid, _ :: rest =>
    match streamFiles cid (gen i) with
    | (evs, cid', none) =>
      match streamUnits gen (i + 1) cid' rest with
      | (evs', cid'', e) => (evs ++ evs', cid'', e)
    | (evs, cid', some m) => (evs, cid', some m)

/-- server.py handle_stream_binary: empty text writes one Error; otherwise
chunks are streamed, then one End carrying the final chunk id on success, or
one Error on a raised exception. -/
def handle_stream_binary (gen : Nat → List (Except String Audio)) (text : List Char) :
    List BinEvent :=
  if text = [] then [.errMsg "No text provided"]
  else
    let chunks := split_text_into_chunks text MAX_CHUNK_CHARS
    match streamUnits gen 0 0 chunks with
    | (evs, n, none) => evs ++ [.endMsg n]
    | (evs, _, some m) => evs ++ [.errMsg m]

/-- The trace is a run of Chunk messages with consecutive ids starting at k. -/
def chunksFrom : Nat → List BinEvent → Bool
  | _, [] => true
  | k, .chunk i _ _ :: rest => (i == k) && chunksFrom (k + 1) rest
  | _, _ => false

theorem chunksFrom_append : ∀ {a : List BinEvent} {k : Nat} {b : List BinEvent},
    chunksFrom k a = true → chunksFrom (k + a.length) b = true →
    chunksFrom k (a ++ b) = true := by
  intro a
  induction a with
  | nil =>
    intro k b _ hb
    simpa using hb
  | cons x rest ih =>
    intro k b ha hb
    match x with
    | .chunk i s r =>
      simp only [chunksFrom, Bool.and_eq_true] at ha
      simp only [List.cons_append, chunksFrom, Bool.and_eq_true]
      refine ⟨ha.1, ih ha.2 ?_⟩
      simp only [List.length_cons] at hb
      rw [show k + 1 + rest.length = k + (rest.length + 1) by omega]
      exact hb
    | .endMsg n => simp [chunksFrom] at ha
    | .errMsg m => simp [chunksFrom] at ha

theorem streamFiles_spec : ∀ (files : List (Except String Audio)) (cid : Nat),
    chunksFrom cid (streamFiles cid files).1 = true ∧
      (streamFiles cid files).2.1 = cid + (streamFiles cid files).1.length := by
  intro files
  induction files with
  | nil => intro cid; exact ⟨rfl, rfl⟩
  | cons f rest ih =>
    intro cid
    match f with
    | .ok a =>
      obtain ⟨h1, h2⟩ := ih (cid + 1)
      rcases hrec : streamFiles (cid + 1) rest with ⟨evs, cid', e⟩
      rw [hrec] at h1 h2
      simp only at h1 h2
      simp only [streamFiles, hrec]
      constructor
      · simp only [chunksFrom, Bool.and_eq_true, beq_self_eq_true]
        exact ⟨trivial, h1⟩
      · simp only [List.length_cons]
        omega
    | .error m => exact ⟨rfl, by simp [streamFiles]⟩

theorem streamUnits_spec (gen : Nat → List (Except String Audio)) :
    ∀ (l : List (List Char)) (i cid : Nat),
      chunksFrom cid (streamUnits gen i cid l).1 = true ∧
        (streamUnits gen i cid l).2.1 = cid + (streamUnits gen i cid l).1.length := by
  intro l
  induction l with
  | nil => intro i cid; exact ⟨rfl, rfl⟩
  | cons x rest ih =>
    intro i cid
    obtain ⟨hf1, hf2⟩ := streamFiles_spec (gen i) cid
    rcases hf : streamFiles cid (gen i) with ⟨evs, cid', e⟩
    rw [hf] at hf1 hf2
    simp only at hf1 hf2
    match e with
    | some m =>
      simp only [streamUnits, hf]
      exact ⟨hf1, by simpa using hf2⟩
    | none =>
      obtain ⟨hu1, hu2⟩ := ih (i + 1) cid'
      rcases hu : streamUnits gen (i + 1) cid' rest with ⟨evs', cid'', e'⟩
      rw [hu] at hu1 hu2
      simp only at hu1 hu2
      simp only [streamUnits, hf, hu]
      constructor
      · refine chunksFrom_append hf1 ?_
        rw [← hf2]
        exact hu1
      · simp only [List.length_append]
        omega

/-- Claim C5: the binary stream is a run of Chunk messages with consecutive
ids starting at 0, terminated by exactly one final message: an End carrying
the number of chunks sent on success, or a single Error after which nothing
follows. -/
theorem C5_binary_stream_shape (gen : Nat → List (Except String Audio))
    (text : List Char) :
    ∃ evs t, handle_stream_binary gen text = evs ++ [t] ∧
      chunksFrom 0 evs = true ∧
      (t = BinEvent.endMsg evs.length ∨ ∃ m, t = BinEvent.errMsg m) := by
  unfold handle_stream_binary
  by_cases htext : text = []
  · rw [if_pos htext]
    exact ⟨[], .errMsg "No text provided", by simp, rfl, Or.inr ⟨_, rfl⟩⟩
  · rw [if_neg htext]
    obtain ⟨h1, h2⟩ := streamUnits_spec gen (split_text_into_chunks text MAX_CHUNK_CHARS) 0 0
    rcases hu : streamUnits gen 0 0 (split_text_into_chunks text MAX_CHUNK_CHARS)
      with ⟨evs, n, e⟩
    rw [hu] at h1 h2
    simp only at h1 h2
    match e with
    | none =>
      refine ⟨evs, .endMsg n, by simp only [hu], h1, Or.inl ?_⟩
      rw [h2]
      simp
    | some m => exact ⟨evs, .errMsg m, by simp only [hu], h1, Or.inr ⟨m, rfl⟩⟩

/-! ## JSON streaming handler (server.py, handle_generate_stream)

Each unit's generate_audio call sits outside the per-file try, so a
generation failure raises into the outer except (error response code 2); the
wavfile.read of the produced file sits inside a per-unit try/except that logs
a warning and skips the unit.  One wav file per unit. -/

inductive UnitOutcome where
  | genFail (msg : String)
  | readFail (msg : String)
  | ok (a : Audio)
deriving DecidableEq

def isGenFail : UnitOutcome → Bool
  | .genFail _ => true
  | _ => false

def isOkUnit : UnitOutcome → Bool
  | .ok _ => true
  | _ => false

/-- Number of units among [i, i+len) whose outcome is a successful read. -/
def countOkUnits (gen : Nat → UnitOutcome) : Nat → Nat → Nat
  | _, 0 => 0
  | i, len + 1 => (if isOkUnit (gen i) then 1 else 0) + countOkUnits gen (i + 1) len

/-- One chunk message of the JSON stream: {"id", "chunk": n, "audio_path",
"duration", "sample_rate"}. -/
structure StreamChunkMsg where
  chunkNum : Nat
  rate : Nat
deriving DecidableEq

/-- Terminal message of handle_generate_stream: the completion mapping
{"id", "complete": true, "total_chunks", ...} or an error response. -/
inductive StreamResp where
  | done (total_chunks : Nat)
  | error (code : Int) (message : String)
deriving DecidableEq

/-- The unit loop of handle_generate_stream: genFail aborts into the outer
except; readFail is caught per unit and skipped; ok sends a chunk message
with the incremented 1-based chunk number. -/
def streamJsonUnits (gen : Nat → UnitOutcome) :
    Nat → Nat → List (List Char) → List StreamChunkMsg × Nat × Option String
  | _, n, [] => ([], n, none)
  | i, n, _ :: rest =>
    match gen i with
    | .genFail m => ([], n, some m)
    | .readFail _ => streamJsonUnits gen (i + 1) n rest
    | .ok a =>
      match streamJsonUnits gen (i + 1) (n + 1) rest with
      | (evs, n', e) => (⟨n + 1, a.rate⟩ :: evs, n', e)

/-- server.py handle_generate_stream: stream chunk messages, then return the
completion message with total_chunks = chunk_num, or an error response if the
loop raised. -/
def handle_generate_stream (gen : Nat → UnitOutcome) (text : List Char) :
    List StreamChunkMsg × StreamResp :=
  let chunks := split_text_into_chunks text MAX_CHUNK_CHARS
  match streamJsonUnits gen 0 0 chunks with
  | (evs, n, none) => (evs, .done n)
  | (evs, _, some m) => (evs, .error 2 m)

theorem streamJsonUnits_spec (gen : Nat → UnitOutcome) :
    ∀ (l : List (List Char)) (i n : Nat),
      (∀ j, j < l.length → isGenFail (gen (i + j)) = false) →
      (streamJsonUnits gen i n l).2.2 = none ∧
        (streamJsonUnits gen i n l).2.1 = n + countOkUnits gen i l.length ∧
        (streamJsonUnits gen i n l).1.length = countOkUnits gen i l.length := by
  intro l
  induction l with
  | nil =>
    intro i n _
    exact ⟨rfl, by simp [streamJsonUnits, countOkUnits], rfl⟩
  | cons x rest ih =>
    intro i n h
    have hshift : ∀ j, j < rest.length → isGenFail (gen (i + 1 + j)) = false := by
      intro j hj
      have := h (j + 1) (by simp only [List.length_cons]; omega)
      rw [show i + (j + 1) = i + 1 + j by omega] at this
      exact this
    cases hg : gen i with
    | genFail m =>
      have := h 0 (by simp only [List.length_cons]; omega)
      rw [Nat.add_zero, hg] at this
      simp [isGenFail] at this
    | readFail m =>
      obtain ⟨h1, h2, h3⟩ := ih (i + 1) n hshift
      simp only [streamJsonUnits, hg]
      have hcnt : countOkUnits gen i (x :: rest).length =
          countOkUnits gen (i + 1) rest.length := by
        simp [List.length_cons, countOkUnits, isOkUnit, hg]
      exact ⟨h1, by rw [h2, hcnt], by rw [h3, hcnt]⟩
    | ok a =>
      obtain ⟨h1, h2, h3⟩ := ih (i + 1) (n + 1) hshift
      rcases hs : streamJsonUnits gen (i + 1) (n + 1) rest with ⟨evs, n', e⟩
      rw [hs] at h1 h2 h3
      simp only at h1 h2 h3
      simp only [streamJsonUnits, hg, hs]
      have hcnt : countOkUnits gen i (rest.length + 1) =
          1 + countOkUnits gen (i + 1) rest.length := by
        simp [countOkUnits, isOkUnit, hg]
      refine ⟨h1, ?_, ?_⟩
      · rw [h2]
        simp only [List.length_cons, hcnt]
        omega
      · simp only [List.length_cons, h3, hcnt]
        omega

/-- Claim C10: in the JSON streaming variant, when no generation call raises,
read failures are skipped per unit and the terminal message still reports
complete=true with total_chunks equal to the number of chunks actually sent
(the successfully read units), which can be fewer than the segmented units. -/
theorem C10_stream_read_failures_skipped (gen : Nat → UnitOutcome) (text : List Char)
    (hnofail : ∀ i, i < (split_text_into_chunks text MAX_CHUNK_CHARS).length →
      isGenFail (gen i) = false) :
    (handle_generate_stream gen text).2 =
      .done (countOkUnits gen 0 (split_text_into_chunks text MAX_CHUNK_CHARS).length) ∧
    (handle_generate_stream gen text).1.length =
      countOkUnits gen 0 (split_text_into_chunks text MAX_CHUNK_CHARS).length := by
  obtain ⟨h1, h2, h3⟩ := streamJsonUnits_spec gen
    (split_text_into_chunks text MAX_CHUNK_CHARS) 0 0
    (fun j hj => by simpa using hnofail j hj)
  rcases hs : streamJsonUnits gen 0 0 (split_text_into_chunks text MAX_CHUNK_CHARS)
    with ⟨evs, n, e⟩
  rw [hs] at h1 h2 h3
  simp only at h1 h2 h3
  subst h1
  simp only [handle_generate_stream, hs]
  rw [Nat.zero_add] at h2
  exact ⟨by rw [h2], by rw [h3]⟩

theorem C10_witness :
    (∀ i, i < (split_text_into_chunks "ab. cd".toList MAX_CHUNK_CHARS).length →
      isGenFail ((fun _ => UnitOutcome.readFail "io") i) = false) ∧
    (handle_generate_stream (fun _ => UnitOutcome.readFail "io") "ab. cd".toList).2 =
      .done (countOkUnits (fun _ => UnitOutcome.readFail "io") 0
        (split_text_into_chunks "ab. cd".toList MAX_CHUNK_CHARS).length) ∧
    (handle_generate_stream (fun _ => UnitOutcome.readFail "io") "ab. cd".toList).1.length =
      countOkUnits (fun _ => UnitOutcome.readFail "io") 0
        (split_text_into_chunks "ab. cd".toList MAX_CHUNK_CHARS).length :=
  ⟨fun _ _ => rfl,
    C10_stream_read_failures_skipped (fun _ => UnitOutcome.readFail "io")
      "ab. cd".toList (fun _ _ => rfl)⟩

/-! ## Request routing and wire-message field shapes (server.py,
handle_request and run_server)

A terminal message is summarized by its top-level JSON keys, exactly as the
dict literals in the source are written. -/

/-- Top-level keys of the handle_generate terminal message. -/
def GenResp.keys : GenResp → List String
  | .result _ _ _ _ _ _ => ["id", "result"]
  | .error _ _ => ["id", "error"]

/-- Top-level keys of the handle_generate_stream terminal message: the
completion message carries neither a result nor an error field. -/
def StreamResp.keys : StreamResp → List String
  | .done _ => ["id", "complete", "total_chunks", "total_duration", "rtf"]
  | .error _ _ => ["id", "error"]

structure Request where
  id : String
  method : String
  text : List Char
  streamFlag : Bool

/-- Terminal message keys of the generate method: the empty-text check runs
first (error code 1), then dispatch to the streaming handler when
stream=true, else the non-streaming handler. -/
def generateTerminalKeys (genN : Nat → Except String Audio) (genS : Nat → UnitOutcome)
    (text : List Char) (stream : Bool) : List String :=
  if text = [] then GenResp.keys (.error 1 "No text provided")
  else if stream then StreamResp.keys (handle_generate_stream genS text).2
  else GenResp.keys (handle_generate genN text)

/-- server.py handle_request: routes to the handler, returning the terminal
JSON message keys (none for stream-binary, which writes no JSON) and the
is_tts flag consumed by the idle timer. -/
def handle_request (genN : Nat → Except String Audio) (genS : Nat → UnitOutcome)
    (req : Request) : Option (List String) × Bool :=
  if req.method = "generate" then
    (some (generateTerminalKeys genN genS req.text req.streamFlag), true)
  else if req.method = "stream-binary" then (none, true)
  else if req.method = "health" then (some ["id", "result"], false)
  else if req.method = "list-models" then (some ["id", "result"], false)
  else (some ["id", "error"], false)

/-- Claim C6 as stated is false: the success terminal of the JSON streaming
variant of generate carries neither a result nor an error field. -/
theorem C6_counterexample :
    ¬(∀ (genN : Nat → Except String Audio) (genS : Nat → UnitOutcome)
        (req : Request) (keys : List String),
      (handle_request genN genS req).1 = some keys →
        (("result" ∈ keys) ↔ ¬("error" ∈ keys))) := by
  intro h
  have := h (fun _ => .error "x") (fun _ => .ok ⟨24000, [1]⟩)
    ⟨"1", "generate", "hi".toList, true⟩ _ rfl
  revert this
  decide

/-- Claim C6 (amended): every terminal line-protocol Response contains at
most one of result and error, and exactly one except for the success terminal
of the JSON-streaming generate variant, which contains neither. -/
theorem C6_amended (genN : Nat → Except String Audio) (genS : Nat → UnitOutcome)
    (req : Request) (keys : List String)
    (h : (handle_request genN genS req).1 = some keys) :
    ¬("result" ∈ keys ∧ "error" ∈ keys) ∧
      ((("result" ∈ keys) ↔ ¬("error" ∈ keys)) ∨
        ("result" ∉ keys ∧ "error" ∉ keys ∧ req.method = "generate" ∧
          req.streamFlag = true)) := by
  unfold handle_request at h
  by_cases h1 : req.method = "generate"
  · rw [if_pos h1] at h
    simp only [Option.some.injEq] at h
    subst h
    unfold generateTerminalKeys
    by_cases ht : req.text = []
    · rw [if_pos ht]
      exact ⟨by decide, Or.inl (by decide)⟩
    · rw [if_neg ht]
      by_cases hstream : req.streamFlag = true
      · rw [if_pos hstream]
        cases hterm : (handle_generate_stream genS req.text).2 with
        | done n =>
          simp only [StreamResp.keys]
          exact ⟨by decide, Or.inr ⟨by decide, by decide, h1, hstream⟩⟩
        | error c m =>
          simp only [StreamResp.keys]
          exact ⟨by decide, Or.inl (by decide)⟩
      · rw [if_neg hstream]
        cases hterm : handle_generate genN req.text with
        | result a sr cp cg ct rs =>
          simp only [GenResp.keys]
          exact ⟨by decide, Or.inl (by decide)⟩
        | error c m =>
          simp only [GenResp.keys]
          exact ⟨by decide, Or.inl (by decide)⟩
  · rw [if_neg h1] at h
    by_cases h2 : req.method = "stream-binary"
    · rw [if_pos h2] at h
      exact absurd h (by simp)
    · rw [if_neg h2] at h
      by_cases h3 : req.method = "health"
      · rw [if_pos h3] at h
        simp only [Option.some.injEq] at h
        subst h
        exact ⟨by decide, Or.inl (by decide)⟩
      · rw [if_neg h3] at h
        by_cases h4 : req.method = "list-models"
        · rw [if_pos h4] at h
          simp only [Option.some.injEq] at h
          subst h
          exact ⟨by decide, Or.inl (by decide)⟩
        · rw [if_neg h4] at h
          simp only [Option.some.injEq] at h
          subst h
          exact ⟨by decide, Or.inl (by decide)⟩

theorem C6_witness :
    (handle_request (fun _ => Except.error "x") (fun _ => UnitOutcome.genFail "x")
        ⟨"9", "health", [], false⟩).1 = some ["id", "result"] ∧
      ¬("result" ∈ ["id", "result"] ∧ "error" ∈ ["id", "result"]) ∧
        ((("result" ∈ ["id", "result"]) ↔ ¬("error" ∈ ["id", "result"])) ∨
          ("result" ∉ ["id", "result"] ∧ "error" ∉ ["id", "result"] ∧
            ("health" : String) = "generate" ∧ false = true)) :=
  ⟨rfl, C6_amended (fun _ => Except.error "x") (fun _ => UnitOutcome.genFail "x")
    ⟨"9", "health", [], false⟩ ["id", "result"] rfl⟩

/-! ## Idle-shutdown timer (server.py, run_server) -/

def IDLE_TIMEOUT_SECONDS : Nat := 60 * 60

/-- run_server: after handling a request at time now, last_tts_time is reset
exactly when handle_request reported is_tts. -/
def updateLastTts (genN : Nat → Except String Audio) (genS : Nat → UnitOutcome)
    (req : Request) (last now : Nat) : Nat :=
  if (handle_request genN genS req).2 then now else last

/-- run_server: the idle check at the top of the accept loop breaks out of
the loop (shutting the server down) when the idle time exceeds the
threshold. -/
def idleShutdown (last now : Nat) : Bool := IDLE_TIMEOUT_SECONDS < now - last

/-- Claim C9 as stated is false: a generate request that fails (here: empty
text, error code 1) still resets the idle timestamp, because handle_request
reports is_tts for every generate/stream-binary request regardless of
outcome. -/
theorem C9_counterexample :
    (handle_request (fun _ => Except.error "x") (fun _ => UnitOutcome.genFail "x")
        ⟨"2", "generate", [], false⟩).1 = some ["id", "error"] ∧
      updateLastTts (fun _ => Except.error "x") (fun _ => UnitOutcome.genFail "x")
        ⟨"2", "generate", [], false⟩ 0 999 = 999 := by
  constructor
  · rfl
  · rfl

/-- Claim C9 (amended): the idle timestamp is reset by every generate or
stream-binary request, successful or not; health, list-models and unknown
methods leave it unchanged; and the server shuts down exactly when the idle
duration exceeds the threshold (3600 seconds). -/
theorem C9_amended (genN : Nat → Except String Audio) (genS : Nat → UnitOutcome)
    (req : Request) (last now : Nat) :
    updateLastTts genN genS req last now =
      (if req.method = "generate" ∨ req.method = "stream-binary" then now else last) ∧
    (idleShutdown last now = true ↔ now - last > IDLE_TIMEOUT_SECONDS) := by
  constructor
  · unfold updateLastTts handle_request
    by_cases h1 : req.method = "generate"
    · simp [h1]
    · by_cases h2 : req.method = "stream-binary"
      · simp [h1, h2]
      · by_cases h3 : req.method = "health"
        · simp [h1, h2, h3]
        · by_cases h4 : req.method = "list-models"
          · simp [h1, h2, h3, h4]
          · simp [h1, h2, h3, h4]
  · simp [idleShutdown]

end Speak
